import Mathlib

/-!
Verification of the nanotron distributed-coordination layer.

Shallow embedding of:
- `src/nanotron/distributed/parallel_context.py` (ParallelContext: validation,
  3D rank arithmetic, process-group enumeration, group deduplication, destroy),
- `examples/doremi/dataloader.py` (sanity_check_dataloader, SkipBatchSampler,
  DistributedSamplerForDoReMi, CombinedDataset),
- `src/nanotron/core/optimizer/optimizer_from_gradient_accumulator.py`
  (state_dict / load_state_dict composition),
- `src/nanotron/helpers.py` (get_all_comps).

Machine integers are modelled as Nat (no overflow is reachable in the modelled
code paths), Python exceptions as Except, and Python dicts as association lists.
-/

namespace Nanotron

/-! ## Topology: ParallelContext rank arithmetic

`init_parallel_groups` arranges `np.arange(world_size)` in row-major order into
shape `(pp, dp, tp)`, so the rank sitting at coordinate `(p, d, t)` is
`p * (dp * tp) + d * tp + t`. -/

/-- Rank found at coordinate `(p, d, t)` of the row-major
`(pp, dp, tp)`-shaped world-rank matrix. -/
def rankOfCoord (tp dp : ℕ) (p d t : ℕ) : ℕ :=
  p * (dp * tp) + d * tp + t

/-- The coordinate formulas of `ParallelContext.get_3d_ranks`:
`pp_rank = (rank // (tp*dp)) % pp`, `dp_rank = (rank // tp) % dp`,
`tp_rank = rank % tp`. -/
def get_3d_ranks (tp dp pp r : ℕ) : ℕ × ℕ × ℕ :=
  ((r / (tp * dp)) % pp, (r / tp) % dp, r % tp)

/-- Tensor-parallel axis enumeration: `ranks.reshape((pp*dp, tp))`, rows in
order.  Row `j` holds ranks `j*tp + t` for `t < tp`. -/
def tpGroupRows (tp dp pp : ℕ) : List (List ℕ) :=
  (List.range (pp * dp)).map (fun j => (List.range tp).map (fun t => j * tp + t))

/-- Data-parallel axis enumeration: `ranks.transpose((0, 2, 1)).reshape((pp*tp, dp))`.
Row `j` (with `p = j / tp`, `t = j % tp`) holds ranks `ranks[p][d][t]` for `d < dp`. -/
def dpGroupRows (tp dp pp : ℕ) : List (List ℕ) :=
  (List.range (pp * tp)).map (fun j =>
    (List.range dp).map (fun d => (j / tp) * (dp * tp) + d * tp + j % tp))

/-- Pipeline-parallel axis enumeration: `ranks.transpose((2, 1, 0)).reshape((tp*dp, pp))`.
Row `j` (with `t = j / dp`, `d = j % dp`) holds ranks `ranks[p][d][t]` for `p < pp`. -/
def ppGroupRows (tp dp pp : ℕ) : List (List ℕ) :=
  (List.range (tp * dp)).map (fun j =>
    (List.range pp).map (fun p => p * (dp * tp) + (j % dp) * tp + j / dp))

/-- Model-parallel enumeration: for each `dp_rank`, `ranks[:, dp_rank, :].reshape(-1)`. -/
def mpGroupRows (tp dp pp : ℕ) : List (List ℕ) :=
  (List.range dp).map (fun d =>
    (List.range pp).flatMap (fun p => (List.range tp).map (fun t => p * (dp * tp) + d * tp + t)))

/-! ## ParallelContext.__init__ validation (C2)

The three asserts run before any process group is created; on failure the
constructor raises (fatal, no retry), hence the model returns the group
enumeration only when all three checks pass. -/

inductive ConfigError
  | dpDivisibility
  | modelDivisibility
  | productMismatch
deriving DecidableEq

/-- Model of `ParallelContext.__init__`: validation followed by group construction.
`num_gpus_per_model = tensor_parallel_size * pipeline_parallel_size`; the three
asserts are checked in source order, and only afterwards are the parallel
groups enumerated. -/
def parallelContextInit (tp pp dp world : ℕ) : Except ConfigError (List (List ℕ)) :=
  let num_gpus_per_model := tp * pp
  if world % dp ≠ 0 then .error .dpDivisibility
  else if world % num_gpus_per_model ≠ 0 then .error .modelDivisibility
  else if num_gpus_per_model * dp ≠ world then .error .productMismatch
  else .ok (tpGroupRows tp dp pp ++ dpGroupRows tp dp pp ++ ppGroupRows tp dp pp
            ++ mpGroupRows tp dp pp)

/-- Whether an `Except` value is an error. -/
def isError : Except ε α → Bool
  | .error _ => true
  | .ok _ => false

/-! ## Group registry deduplication (C3)

`init_parallel_groups` keys `world_ranks_to_pg` by `tuple(sorted(ranks))` and
creates a new group only when the key is absent. -/

/-- Python `tuple(sorted(ranks))`. -/
def sortRanks (g : List ℕ) : List ℕ :=
  g.insertionSort (· ≤ ·)

/-- The registry `world_ranks_to_pg`: keys in insertion order plus the number
of `dist.new_group` calls performed so far. -/
structure GroupRegistry where
  keys : List (List ℕ)
  numCreated : ℕ
deriving DecidableEq

/-- One step of the enumeration:
`sorted_ranks = tuple(sorted(g)); if sorted_ranks not in world_ranks_to_pg:
new_group = dist.new_group(...)` else reuse the registered group. -/
def addGroup (st : GroupRegistry) (g : List ℕ) : GroupRegistry :=
  if sortRanks g ∈ st.keys then st
  else ⟨st.keys ++ [sortRanks g], st.numCreated + 1⟩

/-- The deterministic order in which `init_parallel_groups` visits member sets:
tensor axis, then data, then pipeline, then the model groups. -/
def parallelGroupEnumeration (tp dp pp : ℕ) : List (List ℕ) :=
  tpGroupRows tp dp pp ++ dpGroupRows tp dp pp ++ ppGroupRows tp dp pp ++ mpGroupRows tp dp pp

/-- The registry built by a full run of `init_parallel_groups`. -/
def buildRegistry (tp dp pp : ℕ) : GroupRegistry :=
  (parallelGroupEnumeration tp dp pp).foldl addGroup ⟨[], 0⟩

/-! ## Theorems for the topology layer -/

theorem rankOfCoord_normal (tp dp p d t : ℕ) :
    rankOfCoord tp dp p d t = t + tp * (d + dp * p) := by
  unfold rankOfCoord; ring

theorem rank_decomp (tp dp pp : ℕ) (ht : 0 < tp) (hd : 0 < dp) (hp : 0 < pp)
    (r : ℕ) (hr : r < pp * dp * tp) :
    get_3d_ranks tp dp pp r = (r / tp / dp, (r / tp) % dp, r % tp) ∧
    r / tp / dp < pp ∧ (r / tp) % dp < dp ∧ r % tp < tp ∧
    rankOfCoord tp dp (r / tp / dp) ((r / tp) % dp) (r % tp) = r := by
  have hj : r / tp < pp * dp := by
    rw [Nat.div_lt_iff_lt_mul ht]
    calc r < pp * dp * tp := hr
    _ = pp * dp * tp := rfl
  have hq : r / tp / dp < pp := by
    rw [Nat.div_lt_iff_lt_mul hd]
    exact hj
  refine ⟨?_, hq, Nat.mod_lt _ hd, Nat.mod_lt _ ht, ?_⟩
  · unfold get_3d_ranks
    rw [← Nat.div_div_eq_div_mul, Nat.mod_eq_of_lt hq]
  · rw [rankOfCoord_normal]
    have h1 : dp * (r / tp / dp) + (r / tp) % dp = r / tp := Nat.div_add_mod (r / tp) dp
    have h2 : tp * (r / tp) + r % tp = r := Nat.div_add_mod r tp
    calc r % tp + tp * ((r / tp) % dp + dp * (r / tp / dp))
        = r % tp + tp * (dp * (r / tp / dp) + (r / tp) % dp) := by ring
      _ = r % tp + tp * (r / tp) := by rw [h1]
      _ = r := by omega

/-- C1: over a valid `(tp, dp, pp)` topology the rank → coordinate mapping of
`get_3d_ranks` is a bijection (two-sided inverse of the row-major placement),
each rank belongs to a tensor-axis row of size `tp`, a data-axis row of size
`dp` and a pipeline-axis row of size `pp`, and concretely at
`world_size = 8, tp = dp = pp = 2` rank 5 maps to
`(pipeline = 1, data = 0, tensor = 1)`. -/
theorem topology_bijection_and_group_sizes (tp dp pp : ℕ)
    (ht : 0 < tp) (hd : 0 < dp) (hp : 0 < pp) :
    (∀ p < pp, ∀ d < dp, ∀ t < tp,
        get_3d_ranks tp dp pp (rankOfCoord tp dp p d t) = (p, d, t)) ∧
    (∀ r < pp * dp * tp,
        (get_3d_ranks tp dp pp r).1 < pp ∧
        (get_3d_ranks tp dp pp r).2.1 < dp ∧
        (get_3d_ranks tp dp pp r).2.2 < tp ∧
        rankOfCoord tp dp (get_3d_ranks tp dp pp r).1
          (get_3d_ranks tp dp pp r).2.1 (get_3d_ranks tp dp pp r).2.2 = r) ∧
    (∀ r < pp * dp * tp, ∃ g ∈ tpGroupRows tp dp pp, r ∈ g ∧ g.length = tp) ∧
    (∀ r < pp * dp * tp, ∃ g ∈ dpGroupRows tp dp pp, r ∈ g ∧ g.length = dp) ∧
    (∀ r < pp * dp * tp, ∃ g ∈ ppGroupRows tp dp pp, r ∈ g ∧ g.length = pp) ∧
    get_3d_ranks 2 2 2 5 = (1, 0, 1) := by
  have key : ∀ p < pp, ∀ d < dp, ∀ t < tp,
      get_3d_ranks tp dp pp (rankOfCoord tp dp p d t) = (p, d, t) := by
    intro p hp' d hd' t ht'
    unfold get_3d_ranks
    rw [rankOfCoord_normal]
    have e1 : (t + tp * (d + dp * p)) % tp = t := by
      rw [Nat.add_mul_mod_self_left, Nat.mod_eq_of_lt ht']
    have e2 : (t + tp * (d + dp * p)) / tp = d + dp * p := by
      rw [Nat.add_mul_div_left _ _ ht, Nat.div_eq_of_lt ht', Nat.zero_add]
    have e3 : (t + tp * (d + dp * p)) / (tp * dp) = p := by
      rw [← Nat.div_div_eq_div_mul, e2, Nat.add_mul_div_left _ _ hd,
        Nat.div_eq_of_lt hd', Nat.zero_add]
    rw [e1, e2, e3, Nat.add_mul_mod_self_left, Nat.mod_eq_of_lt hd',
      Nat.mod_eq_of_lt hp']
  refine ⟨key, ?_, ?_, ?_, ?_, ?_⟩
  · intro r hr
    obtain ⟨hcoord, hq, hdm, htm, hrank⟩ := rank_decomp tp dp pp ht hd hp r hr
    rw [hcoord]
    exact ⟨hq, hdm, htm, hrank⟩
  · intro r hr
    obtain ⟨_, hq, hdm, htm, hrank⟩ := rank_decomp tp dp pp ht hd hp r hr
    have hj : r / tp < pp * dp := by
      rw [Nat.div_lt_iff_lt_mul ht]; exact hr
    refine ⟨(List.range tp).map (fun t => (r / tp) * tp + t), ?_, ?_, ?_⟩
    · exact List.mem_map.mpr ⟨r / tp, List.mem_range.mpr hj, rfl⟩
    · refine List.mem_map.mpr ⟨r % tp, List.mem_range.mpr htm, ?_⟩
      show r / tp * tp + r % tp = r
      rw [Nat.mul_comm]
      exact Nat.div_add_mod r tp
    · simp
  · intro r hr
    obtain ⟨_, hq, hdm, htm, hrank⟩ := rank_decomp tp dp pp ht hd hp r hr
    set p := r / tp / dp with hpdef
    set d := (r / tp) % dp with hddef
    set t := r % tp with htdef
    have hjj : p * tp + t < pp * tp := by
      calc p * tp + t < p * tp + tp := by omega
        _ = (p + 1) * tp := by ring
        _ ≤ pp * tp := Nat.mul_le_mul_right _ hq
    have hdiv : (p * tp + t) / tp = p := by
      rw [Nat.add_comm, Nat.mul_comm p tp, Nat.add_mul_div_left _ _ ht,
        Nat.div_eq_of_lt htm, Nat.zero_add]
    have hmod : (p * tp + t) % tp = t := by
      rw [Nat.add_comm, Nat.mul_comm p tp, Nat.add_mul_mod_self_left,
        Nat.mod_eq_of_lt htm]
    refine ⟨(List.range dp).map
      (fun d' => ((p * tp + t) / tp) * (dp * tp) + d' * tp + (p * tp + t) % tp), ?_, ?_, ?_⟩
    · exact List.mem_map.mpr ⟨p * tp + t, List.mem_range.mpr hjj, rfl⟩
    · refine List.mem_map.mpr ⟨d, List.mem_range.mpr hdm, ?_⟩
      rw [hdiv, hmod]
      rw [rankOfCoord_normal] at hrank
      calc p * (dp * tp) + d * tp + t = t + tp * (d + dp * p) := by ring
        _ = r := hrank
    · simp
  · intro r hr
    obtain ⟨_, hq, hdm, htm, hrank⟩ := rank_decomp tp dp pp ht hd hp r hr
    set p := r / tp / dp with hpdef
    set d := (r / tp) % dp with hddef
    set t := r % tp with htdef
    have hjj : t * dp + d < tp * dp := by
      calc t * dp + d < t * dp + dp := by omega
        _ = (t + 1) * dp := by ring
        _ ≤ tp * dp := Nat.mul_le_mul_right _ htm
    have hdiv : (t * dp + d) / dp = t := by
      rw [Nat.add_comm, Nat.mul_comm t dp, Nat.add_mul_div_left _ _ hd,
        Nat.div_eq_of_lt hdm, Nat.zero_add]
    have hmod : (t * dp + d) % dp = d := by
      rw [Nat.add_comm, Nat.mul_comm t dp, Nat.add_mul_mod_self_left,
        Nat.mod_eq_of_lt hdm]
    refine ⟨(List.range pp).map
      (fun p' => p' * (dp * tp) + ((t * dp + d) % dp) * tp + (t * dp + d) / dp), ?_, ?_, ?_⟩
    · exact List.mem_map.mpr ⟨t * dp + d, List.mem_range.mpr hjj, rfl⟩
    · refine List.mem_map.mpr ⟨p, List.mem_range.mpr hq, ?_⟩
      rw [hdiv, hmod]
      rw [rankOfCoord_normal] at hrank
      calc p * (dp * tp) + d * tp + t = t + tp * (d + dp * p) := by ring
        _ = r := hrank
    · simp
  · decide

/-- Witness for C1 at the concrete topology `tp = dp = pp = 2`. -/
theorem topology_bijection_and_group_sizes_witness :
    (∀ p < 2, ∀ d < 2, ∀ t < 2,
        get_3d_ranks 2 2 2 (rankOfCoord 2 2 p d t) = (p, d, t)) ∧
    get_3d_ranks 2 2 2 5 = (1, 0, 1) := by
  have h := topology_bijection_and_group_sizes 2 2 2 (by decide) (by decide) (by decide)
  exact ⟨h.1, h.2.2.2.2.2⟩

/-- C2: the `ParallelContext.__init__` validation fails (fatally, before any
group is enumerated) if and only if `world % dp ≠ 0`, or
`world % (tp * pp) ≠ 0`, or `tp * dp * pp ≠ world`. -/
theorem parallelContext_fails_iff (tp pp dp world : ℕ)
    (ht : 0 < tp) (hp : 0 < pp) (hd : 0 < dp) :
    isError (parallelContextInit tp pp dp world) = true ↔
      (world % dp ≠ 0 ∨ world % (tp * pp) ≠ 0 ∨ tp * dp * pp ≠ world) := by
  have hcomm : tp * dp * pp = tp * pp * dp := by ring
  by_cases h1 : world % dp = 0
  · by_cases h2 : world % (tp * pp) = 0
    · by_cases h3 : tp * pp * dp = world
      · have hok : parallelContextInit tp pp dp world
            = .ok (tpGroupRows tp dp pp ++ dpGroupRows tp dp pp
                   ++ ppGroupRows tp dp pp ++ mpGroupRows tp dp pp) := by
          unfold parallelContextInit
          rw [if_neg (by simpa using h1), if_neg (by simpa using h2),
            if_neg (by simpa using h3)]
        rw [hok]
        simp only [isError, Bool.false_eq_true, false_iff]
        push_neg
        exact ⟨h1, h2, by rw [hcomm]; exact h3⟩
      · have herr : parallelContextInit tp pp dp world = .error .productMismatch := by
          unfold parallelContextInit
          rw [if_neg (by simpa using h1), if_neg (by simpa using h2), if_pos h3]
        rw [herr]
        simp only [isError, true_iff]
        exact Or.inr (Or.inr (by rw [hcomm]; exact h3))
    · have herr : parallelContextInit tp pp dp world = .error .modelDivisibility := by
        unfold parallelContextInit
        rw [if_neg (by simpa using h1), if_pos h2]
      rw [herr]
      simp only [isError, true_iff]
      exact Or.inr (Or.inl h2)
  · have herr : parallelContextInit tp pp dp world = .error .dpDivisibility := by
      unfold parallelContextInit
      rw [if_pos h1]
    rw [herr]
    simp only [isError, true_iff]
    exact Or.inl h1

/-- Witness for C2: a failing and a passing configuration. -/
theorem parallelContext_fails_iff_witness :
    (isError (parallelContextInit 2 2 2 6) = true ↔
      ((6 : ℕ) % 2 ≠ 0 ∨ (6 : ℕ) % (2 * 2) ≠ 0 ∨ 2 * 2 * 2 ≠ (6 : ℕ))) ∧
    (isError (parallelContextInit 2 2 2 8) = true ↔
      ((8 : ℕ) % 2 ≠ 0 ∨ (8 : ℕ) % (2 * 2) ≠ 0 ∨ 2 * 2 * 2 ≠ (8 : ℕ))) :=
  ⟨parallelContext_fails_iff 2 2 2 6 (by decide) (by decide) (by decide),
   parallelContext_fails_iff 2 2 2 8 (by decide) (by decide) (by decide)⟩

theorem addGroup_keys_nodup (st : GroupRegistry) (g : List ℕ)
    (h : st.keys.Nodup) : (addGroup st g).keys.Nodup := by
  unfold addGroup
  split_ifs with hmem
  · exact h
  · simpa [List.nodup_append] using ⟨h, hmem⟩

theorem foldl_addGroup_nodup (gs : List (List ℕ)) :
    ∀ (st : GroupRegistry), st.keys.Nodup → ((gs.foldl addGroup st).keys).Nodup := by
  induction gs with
  | nil => intro st h; exact h
  | cons g gs ih =>
    intro st h
    exact ih _ (addGroup_keys_nodup st g h)

/-- C3: the registry keyed by sorted member tuples never holds two groups for
the same key (its key list stays duplicate-free throughout any enumeration),
and a step that reaches an already-registered sorted tuple reuses the existing
group verbatim: the registry and the group-creation count are unchanged.  In
particular this holds for the full deterministic enumeration of
`init_parallel_groups`. -/
theorem group_registry_dedup :
    (∀ gs : List (List ℕ), ((gs.foldl addGroup ⟨[], 0⟩).keys).Nodup) ∧
    (∀ (st : GroupRegistry) (g : List ℕ), sortRanks g ∈ st.keys → addGroup st g = st) ∧
    (∀ tp dp pp : ℕ, ((buildRegistry tp dp pp).keys).Nodup) := by
  refine ⟨fun gs => foldl_addGroup_nodup gs ⟨[], 0⟩ List.nodup_nil, ?_, ?_⟩
  · intro st g hmem
    unfold addGroup
    simp [hmem]
  · intro tp dp pp
    exact foldl_addGroup_nodup _ ⟨[], 0⟩ List.nodup_nil

/-- Witness for C3: reaching the registered key `[0, 1]` via the member list
`[1, 0]` leaves the registry untouched, and the full `tp = dp = pp = 2`
enumeration builds a duplicate-free registry. -/
theorem group_registry_dedup_witness :
    addGroup ⟨[[0, 1]], 1⟩ [1, 0] = ⟨[[0, 1]], 1⟩ ∧
    ((buildRegistry 2 2 2).keys).Nodup :=
  ⟨group_registry_dedup.2.1 ⟨[[0, 1]], 1⟩ [1, 0] (by decide),
   group_registry_dedup.2.2 2 2 2⟩

/-! ## destroy and the groups dictionary (C6)

`ParallelContext.__init__` sets `self._groups = {}`; every call that would
register a group there (`add_group` in `init_global_dist`, the
`parallel_mode_to_pg` loop in `init_parallel_groups`) is commented out in the
source, so after a successful build the dictionary is still empty.
`destroy` first asserts `self.is_initialized(ParallelMode.GLOBAL)`, i.e. that
`ParallelMode.GLOBAL` is a key of `self._groups`. -/

inductive ParallelMode
  | GLOBAL
  | TENSOR
  | PIPELINE
  | DATA
deriving DecidableEq

/-- The slice of `ParallelContext` state that `destroy` reads: the contents of
`self._groups` (parallel mode → group handle). -/
structure PCGroups where
  groupsRegistered : List (ParallelMode × ℕ)
deriving DecidableEq

/-- Method `ParallelContext.is_initialized`: `parallel_mode in self._groups`. -/
def is_initialized (st : PCGroups) (m : ParallelMode) : Bool :=
  (st.groupsRegistered.map Prod.fst).any (fun m2 => m2 == m)

/-- Model of `ParallelContext.__init__`: the three asserts, then group construction;
on success `self._groups` is still the empty dictionary because no code path
of `__init__` ever calls `add_group` (those calls are commented out). -/
def parallelContextBuild (tp pp dp world : ℕ) : Except ConfigError PCGroups :=
  match parallelContextInit tp pp dp world with
  | .error e => .error e
  | .ok _ => .ok ⟨[]⟩

inductive DestroyError
  | assertGlobalNotInitialized
  | attributeErrorGetWorldSize
deriving DecidableEq

/-- Method `ParallelContext.destroy`: asserts the global group is initialized, then
walks `self._groups`; for any non-global entry the loop condition evaluates
`self.get_world_size(mode)`, a method that no longer exists in the class (it
is commented out), which raises `AttributeError`; otherwise it barriers,
destroys the global process group, and clears the dictionary. -/
def destroy (st : PCGroups) : Except DestroyError PCGroups :=
  if is_initialized st .GLOBAL = false then .error .assertGlobalNotInitialized
  else if st.groupsRegistered.any (fun g => !(g.1 == ParallelMode.GLOBAL)) then
    .error .attributeErrorGetWorldSize
  else .ok ⟨[]⟩

/-- C6 (code bug): after any successful `ParallelContext.__init__` the groups
dictionary is empty — every registration call is commented out — so
`destroy()` immediately fails its own assertion that the global group is
initialized.  The claimed teardown sequence (barrier each non-global group,
then the global group last) is unreachable. -/
theorem destroy_after_build_always_asserts (tp pp dp world : ℕ) (st : PCGroups)
    (h : parallelContextBuild tp pp dp world = .ok st) :
    is_initialized st .GLOBAL = false ∧
    destroy st = .error .assertGlobalNotInitialized := by
  unfold parallelContextBuild at h
  cases hinit : parallelContextInit tp pp dp world with
  | error e => rw [hinit] at h; cases h
  | ok gs =>
    rw [hinit] at h
    cases h
    exact ⟨rfl, rfl⟩

/-- Witness for C6 at the smallest valid configuration. -/
theorem destroy_after_build_always_asserts_witness :
    is_initialized (⟨[]⟩ : PCGroups) .GLOBAL = false ∧
    destroy (⟨[]⟩ : PCGroups) = .error .assertGlobalNotInitialized :=
  destroy_after_build_always_asserts 1 1 1 1 ⟨[]⟩ (by rfl)

/-! ## Cross-rank sanity checks of the dataloader (C4)

`sanity_check_dataloader` iterates the micro-batch twice in sorted key order:
first the data-parallel pass, which skips `TensorPointer` fields and fields
whose name contains `"mask"`, wrapping the sync assertion in
`assert_fail_except_rank_with(AssertionError, rank_exception=0, pg=dpg.dp_pg)`;
then the tensor-parallel pass, which skips only `TensorPointer` fields and
calls `assert_tensor_synced_across_pg` directly. -/

/-- A micro-batch field: a materialized tensor (payload abstracted to one
number) or a `TensorPointer` placeholder. -/
inductive BatchField
  | tensor (payload : ℕ)
  | pointer (group_rank : ℕ)
deriving DecidableEq

/-- Substring test on character lists (`needle in hay` for Python strings). -/
def listContainsSub (hay needle : List Char) : Bool :=
  needle.isPrefixOf hay ||
    match hay with
    | [] => false
    | _ :: t => listContainsSub t needle

/-- Python `needle in hay` for strings. -/
def strContains (hay needle : String) : Bool :=
  listContainsSub hay.toList needle.toList

/-- Python `sorted(micro_batch.items(), key=lambda x: x[0])`. -/
def sortBatch (batch : List (String × BatchField)) : List (String × BatchField) :=
  batch.insertionSort (fun a b => a.1 ≤ b.1)

/-- One cross-rank assertion performed by `sanity_check_dataloader`, tagged
with the field name it would report on failure. -/
inductive SanityCheck
  | dpNotSame (key : String)
  | tpSynced (key : String)
deriving DecidableEq

/-- The sequence of cross-rank assertions performed for one micro-batch.
When `config.general.ignore_sanity_checks` is set, no check runs at all. -/
def sanityChecks (ignore_sanity_checks : Bool)
    (batch : List (String × BatchField)) : List SanityCheck :=
  if ignore_sanity_checks then []
  else
    (sortBatch batch).filterMap (fun kv =>
      match kv.2 with
      | .pointer _ => none
      | .tensor _ =>
        if strContains kv.1 "mask" then none else some (.dpNotSame kv.1))
    ++ (sortBatch batch).filterMap (fun kv =>
      match kv.2 with
      | .pointer _ => none
      | .tensor _ => some (.tpSynced kv.1))

/-- Modelled from the spec: `assert_tensor_synced_across_pg` is absent from the
sources (imported from `nanotron.core.utils`); per the spec it asserts the
tensor is bit-identical across the group, each rank comparing its value with
the value held by rank 0 of the group.  `values` maps group rank → tensor
value; the assertion passes on rank `r` iff its value equals the value held at rank 0. -/
def tensorSyncedAssertPasses (values : ℕ → ℕ) (r : ℕ) : Bool :=
  values r == values 0

/-- Modelled from the spec: `assert_fail_except_rank_with(exc, rank_exception, pg)`
is absent from the sources (imported from `nanotron.core.utils`); its name and
its call site — the comment reads that inputs are checked to be not the same
across data-parallel ranks — determine that the wrapped assertion must raise
on every rank of the group except `rank_exception`, where it must pass. -/
def failExceptRankPasses (rank_exception : ℕ) (inner : ℕ → Bool) (r : ℕ) : Bool :=
  if r = rank_exception then inner r else !(inner r)

/-- The data-parallel check the code actually performs per field. -/
def dpFieldCheckPasses (values : ℕ → ℕ) (r : ℕ) : Bool :=
  failExceptRankPasses 0 (tensorSyncedAssertPasses values) r

/-- The tensor-parallel check per field (sync assertion, no wrapper). -/
def tpFieldCheckPasses (values : ℕ → ℕ) (r : ℕ) : Bool :=
  tensorSyncedAssertPasses values r

/-- The data-parallel check as the claim words it: assert the tensor is
bit-identical across the data-parallel group. -/
def claimDpFieldCheckPasses (values : ℕ → ℕ) (r : ℕ) : Bool :=
  tensorSyncedAssertPasses values r

/-- C4 counterexample: take a micro-batch whose only field `"input_ids"` holds
the same tensor value 7 on every data-parallel rank.  The claim says the
data-parallel check asserts bit-identity, so it would pass everywhere; the
code wraps the sync assertion in `assert_fail_except_rank_with(..., 0, dp_pg)`
and therefore FAILS on rank 1, and the check enumerated for the field is the
fail-except-rank-0 kind. -/
theorem sanity_check_dp_direction_counterexample :
    dpFieldCheckPasses (fun _ => 7) 1 = false ∧
    claimDpFieldCheckPasses (fun _ => 7) 1 = true ∧
    sanityChecks false [("input_ids", .tensor 7)]
      = [.dpNotSame "input_ids", .tpSynced "input_ids"] :=
  ⟨rfl, rfl, rfl⟩

/-- C4 as amended: with sanity checks enabled, every real-tensor field whose
name does not contain `"mask"` gets a data-parallel check requiring the field
to DIFFER from data-parallel rank 0 on every other rank (the wrapped sync
assertion must fail except on rank 0), every real-tensor field gets an
unconditional tensor-parallel bit-identity check, placeholder fields are never
checked, each check names its field, and with checks disabled nothing runs. -/
theorem sanity_checks_amended :
    (∀ batch, sanityChecks true batch = []) ∧
    (∀ batch (k : String),
        SanityCheck.dpNotSame k ∈ sanityChecks false batch ↔
          ((∃ v, (k, BatchField.tensor v) ∈ batch) ∧ strContains k "mask" = false)) ∧
    (∀ batch (k : String),
        SanityCheck.tpSynced k ∈ sanityChecks false batch ↔
          (∃ v, (k, BatchField.tensor v) ∈ batch)) ∧
    (∀ values, dpFieldCheckPasses values 0 = true) ∧
    (∀ values r, r ≠ 0 → (dpFieldCheckPasses values r = true ↔ values r ≠ values 0)) ∧
    (∀ values r, tpFieldCheckPasses values r = true ↔ values r = values 0) := by
  have hsortmem : ∀ (batch : List (String × BatchField)) (kv : String × BatchField),
      kv ∈ sortBatch batch ↔ kv ∈ batch := by
    intro batch kv
    exact (List.perm_insertionSort _ batch).mem_iff
  refine ⟨fun _ => rfl, ?_, ?_, ?_, ?_, ?_⟩
  · intro batch k
    simp only [sanityChecks, if_neg (by simp : ¬(false = true)), List.mem_append,
      List.mem_filterMap]
    constructor
    · rintro (⟨⟨k2, f⟩, hkv, heq⟩ | ⟨⟨k2, f⟩, hkv, heq⟩)
      · cases f with
        | pointer g => simp at heq
        | tensor v =>
          cases hm : strContains k2 "mask" with
          | true => rw [hm] at heq; simp at heq
          | false =>
            rw [hm] at heq
            simp at heq
            subst heq
            exact ⟨⟨v, (hsortmem batch _).mp hkv⟩, hm⟩
      · cases f with
        | pointer g => simp at heq
        | tensor v => simp at heq
    · rintro ⟨⟨v, hv⟩, hmask⟩
      left
      refine ⟨(k, .tensor v), (hsortmem batch _).mpr hv, ?_⟩
      simp [hmask]
  · intro batch k
    simp only [sanityChecks, if_neg (by simp : ¬(false = true)), List.mem_append,
      List.mem_filterMap]
    constructor
    · rintro (⟨⟨k2, f⟩, hkv, heq⟩ | ⟨⟨k2, f⟩, hkv, heq⟩)
      · cases f with
        | pointer g => simp at heq
        | tensor v =>
          cases hm : strContains k2 "mask" with
          | true => rw [hm] at heq; simp at heq
          | false => rw [hm] at heq; simp at heq
      · cases f with
        | pointer g => simp at heq
        | tensor v =>
          simp only [Option.some.injEq, SanityCheck.tpSynced.injEq] at heq
          cases heq
          exact ⟨v, (hsortmem batch _).mp hkv⟩
    · rintro ⟨v, hv⟩
      right
      exact ⟨(k, .tensor v), (hsortmem batch _).mpr hv, rfl⟩
  · intro values
    simp [dpFieldCheckPasses, failExceptRankPasses, tensorSyncedAssertPasses]
  · intro values r hr
    simp [dpFieldCheckPasses, failExceptRankPasses, tensorSyncedAssertPasses, hr]
  · intro values r
    simp [tpFieldCheckPasses, tensorSyncedAssertPasses]

/-- Witness for C4 (amended): a mask field and a pointer field are skipped by
the data-parallel pass, a real field is checked by both passes, and the
semantic clauses at rank 1. -/
theorem sanity_checks_amended_witness :
    (SanityCheck.dpNotSame "input_ids" ∈
        sanityChecks false [("input_ids", BatchField.tensor 3),
          ("input_mask", BatchField.tensor 1), ("label_ids", BatchField.pointer 0)] ↔
      ((∃ v, ("input_ids", BatchField.tensor v) ∈ [("input_ids", BatchField.tensor 3),
          ("input_mask", BatchField.tensor 1), ("label_ids", BatchField.pointer 0)]) ∧
        strContains "input_ids" "mask" = false)) ∧
    (dpFieldCheckPasses (fun r => r) 1 = true ↔ (fun r => r) 1 ≠ (fun r => r) 0) := by
  exact ⟨sanity_checks_amended.2.1 _ "input_ids",
    sanity_checks_amended.2.2.2.2.1 (fun r => r) 1 (by decide)⟩

/-! ## OptimizerFromGradientAccumulator state persistence (C5) -/

/-- A state-dict value: either a plain leaf (tensor-shaped, abstracted) or a
nested sub-dictionary (the own state dict of the accumulator). -/
inductive SDVal
  | leaf (v : ℕ)
  | sub (entries : List (String × ℕ))
deriving DecidableEq

/-- State of an `OptimizerFromGradientAccumulator`: the state mapping of the
wrapped base optimizer and of the gradient accumulator.
Modelled from the spec: the wrapped optimizer and the accumulator are external
to the excerpt; per the spec their `state_dict` returns their state mapping
and their `load_state_dict` replaces it. -/
structure AccumOptimState where
  base : List (String × SDVal)
  accumulator : List (String × ℕ)
deriving DecidableEq

/-- Python `dict.pop(k)`: remove the entry with key `k` and return its value together
with the remaining entries; `none` when the key is absent (Python `KeyError`). -/
def popKey (k : String) : List (String × SDVal) → Option (SDVal × List (String × SDVal))
  | [] => none
  | (k2, v) :: rest =>
    if k2 = k then some (v, rest)
    else
      match popKey k rest with
      | none => none
      | some (v2, rest2) => some (v2, (k2, v) :: rest2)

namespace OptimizerFromGradientAccumulator

/-- Method `state_dict`: take the state dict of the base optimizer, assert
`"gradient_accumulator" not in state_dict`, then nest the accumulator state
under that key. -/
def state_dict (s : AccumOptimState) : Except String (List (String × SDVal)) :=
  if "gradient_accumulator" ∈ s.base.map Prod.fst then
    .error "assert failed: gradient_accumulator already in state_dict"
  else
    .ok (s.base ++ [("gradient_accumulator", SDVal.sub s.accumulator)])

/-- Method `load_state_dict`: `state_dict.pop("gradient_accumulator")`, hand the
remainder to the base optimizer, then restore the accumulator from the popped
sub-state. -/
def load_state_dict (s0 : AccumOptimState) (sd : List (String × SDVal)) :
    Except String AccumOptimState :=
  match popKey "gradient_accumulator" sd with
  | none => .error "KeyError: gradient_accumulator"
  | some (gaVal, remainder) =>
    match gaVal with
    | .sub acc => .ok ⟨remainder, acc⟩
    | .leaf _ => .error "gradient accumulator state is not a mapping"

end OptimizerFromGradientAccumulator

theorem popKey_append_last (k : String) (v : SDVal) (l : List (String × SDVal))
    (h : k ∉ l.map Prod.fst) :
    popKey k (l ++ [(k, v)]) = some (v, l) := by
  induction l with
  | nil => simp [popKey]
  | cons hd tl ih =>
    obtain ⟨k2, v2⟩ := hd
    have hk2 : ¬ k2 = k := by
      intro hcontra
      exact h (by simp [hcontra])
    have htl : k ∉ tl.map Prod.fst := by
      intro hcontra
      exact h (by simp [hcontra])
    simp only [List.cons_append, popKey, if_neg hk2, List.append_eq, ih htl]

/-- C5: `state_dict` asserts the key `"gradient_accumulator"` is absent from
the base-optimizer state and nests the accumulator state under it;
`load_state_dict` pops exactly that entry, so the base optimizer is handed
back precisely the original base mapping (never the foreign key), and the
round trip `load_state_dict(state_dict())` reproduces the accumulation
buffers and base-optimizer state bit-identically. -/
theorem ofga_state_dict_roundtrip (s : AccumOptimState)
    (h : "gradient_accumulator" ∉ s.base.map Prod.fst) :
    OptimizerFromGradientAccumulator.state_dict s
      = .ok (s.base ++ [("gradient_accumulator", SDVal.sub s.accumulator)]) ∧
    popKey "gradient_accumulator"
        (s.base ++ [("gradient_accumulator", SDVal.sub s.accumulator)])
      = some (SDVal.sub s.accumulator, s.base) ∧
    (∀ s0 : AccumOptimState,
      OptimizerFromGradientAccumulator.load_state_dict s0
        (s.base ++ [("gradient_accumulator", SDVal.sub s.accumulator)]) = .ok s) := by
  have hpop := popKey_append_last "gradient_accumulator" (SDVal.sub s.accumulator) s.base h
  refine ⟨?_, hpop, ?_⟩
  · unfold OptimizerFromGradientAccumulator.state_dict
    rw [if_neg h]
  · intro s0
    unfold OptimizerFromGradientAccumulator.load_state_dict
    rw [hpop]

/-- Witness for C5 at a concrete optimizer state. -/
theorem ofga_state_dict_roundtrip_witness :
    OptimizerFromGradientAccumulator.state_dict ⟨[("step", SDVal.leaf 1)], [("p", 42)]⟩
      = .ok [("step", SDVal.leaf 1), ("gradient_accumulator", SDVal.sub [("p", 42)])] ∧
    OptimizerFromGradientAccumulator.load_state_dict ⟨[], []⟩
        [("step", SDVal.leaf 1), ("gradient_accumulator", SDVal.sub [("p", 42)])]
      = .ok ⟨[("step", SDVal.leaf 1)], [("p", 42)]⟩ := by
  have h := ofga_state_dict_roundtrip ⟨[("step", SDVal.leaf 1)], [("p", 42)]⟩ (by decide)
  exact ⟨h.1, h.2.2 ⟨[], []⟩⟩

/-! ## SkipBatchSampler (C8)

`SkipBatchSampler.__init__` stores `skip_batches // dp_size`; `__iter__`
enumerates the wrapped sampler and yields only the batches whose index is at
least the stored skip count. -/

/-- Model of `SkipBatchSampler.__iter__` over the materialized batch list of the
wrapped sampler. -/
def SkipBatchSampler_iter {α : Type} (batches : List α) (skip_batches dp_size : ℕ) :
    List α :=
  batches.enum.filterMap
    (fun p => if skip_batches / dp_size ≤ p.1 then some p.2 else none)

theorem enumFrom_filterMap_drop {α : Type} (l : List α) :
    ∀ (n s : ℕ),
      (List.enumFrom n l).filterMap (fun p => if s ≤ p.1 then some p.2 else none)
        = l.drop (s - n) := by
  induction l with
  | nil => intro n s; simp
  | cons x xs ih =>
    intro n s
    simp only [List.enumFrom, List.filterMap_cons]
    by_cases hs : s ≤ n
    · rw [if_pos hs, ih (n + 1) s]
      have h1 : s - n = 0 := by omega
      have h2 : s - (n + 1) = 0 := by omega
      rw [h1, h2]
      rfl
    · rw [if_neg hs, ih (n + 1) s]
      have h1 : s - n = (s - (n + 1)) + 1 := by omega
      rw [h1]
      rfl

/-- C8: wrapping a batch sampler with skip count `S` and data-parallel size
`dp_size` yields exactly the underlying batches from position `S / dp_size`
onward, in order: the first `S / dp_size` batches are discarded. -/
theorem skip_batch_sampler_drops_prefix {α : Type} (batches : List α)
    (S dp_size : ℕ) (hdp : 0 < dp_size) :
    SkipBatchSampler_iter batches S dp_size = batches.drop (S / dp_size) := by
  unfold SkipBatchSampler_iter
  have h := enumFrom_filterMap_drop batches 0 (S / dp_size)
  rw [Nat.sub_zero] at h
  simpa [List.enum] using h

/-- Witness for C8: a concrete resume discards the first two batches. -/
theorem skip_batch_sampler_drops_prefix_witness :
    SkipBatchSampler_iter [[0, 1], [2, 3], [4, 5]] 4 2 = [[0, 1], [2, 3], [4, 5]].drop (4 / 2) :=
  skip_batch_sampler_drops_prefix [[0, 1], [2, 3], [4, 5]] 4 2 (by decide)

/-! ## CombinedDataset (C9)

`CombinedDataset` stores `lengths = [len(d) for d in datasets]` and
`offsets = np.cumsum([0] + lengths[:-1])`; `get_dataset_and_local_index`
scans `enumerate(offsets)`, reading `self.lengths[i]` at each step, and
returns the first `(i, global_idx - offset)` with
`global_idx < offset + lengths[i]`, raising `IndexError` past the end
(an out-of-range `self.lengths[i]` lookup also raises `IndexError`). -/

/-- Function `np.cumsum` with a running accumulator. -/
def cumsumFrom (acc : ℕ) : List ℕ → List ℕ
  | [] => []
  | x :: xs => (acc + x) :: cumsumFrom (acc + x) xs

/-- Function `np.cumsum(l)`. -/
def npCumsum (l : List ℕ) : List ℕ := cumsumFrom 0 l

/-- Model of `self.offsets = np.cumsum([0] + self.lengths[:-1])`. -/
def domainOffsets (lengths : List ℕ) : List ℕ :=
  npCumsum (0 :: lengths.dropLast)

/-- The scan of `get_dataset_and_local_index`: walk the offsets, reading the
length at the same position (`self.lengths[i]`), in lockstep. -/
def gdliGo (g : ℕ) : ℕ → List ℕ → List ℕ → Except String (ℕ × ℕ)
  | _, [], _ => .error "Index out of range"
  | _, _ :: _, [] => .error "list index out of range"
  | i, off :: offs, len :: lens =>
    if g < off + len then .ok (i, g - off) else gdliGo g (i + 1) offs lens

/-- Method `CombinedDataset.get_dataset_and_local_index`. -/
def get_dataset_and_local_index (lengths : List ℕ) (g : ℕ) : Except String (ℕ × ℕ) :=
  gdliGo g 0 (domainOffsets lengths) lengths

/-- Method `CombinedDataset.__len__`: `sum(self.lengths)`. -/
def CombinedDataset_len (lengths : List ℕ) : ℕ := lengths.sum

/-- Offsets in head-recursive form, used to reason about the scan. -/
def offsAux (c : ℕ) : List ℕ → List ℕ
  | [] => []
  | l :: ls => c :: offsAux (c + l) ls

theorem offsAux_cumsum : ∀ (L : List ℕ) (c l : ℕ),
    offsAux c (l :: L) = c :: cumsumFrom c ((l :: L).dropLast) := by
  intro L
  induction L with
  | nil => intro c l; rfl
  | cons l2 L2 ih =>
    intro c l
    show c :: offsAux (c + l) (l2 :: L2) = c :: cumsumFrom c (l :: (l2 :: L2).dropLast)
    rw [ih (c + l) l2]
    rfl

theorem domainOffsets_eq_offsAux (l : ℕ) (L : List ℕ) :
    domainOffsets (l :: L) = offsAux 0 (l :: L) := by
  rw [offsAux_cumsum]
  rfl

theorem gdliGo_spec : ∀ (L : List ℕ) (c i g : ℕ), c ≤ g →
    ((g < c + L.sum →
        ∃ j l, L.get? j = some l ∧
          gdliGo g i (offsAux c L) L = .ok (i + j, g - (c + (L.take j).sum)) ∧
          c + (L.take j).sum ≤ g ∧ g < c + (L.take j).sum + l) ∧
     (c + L.sum ≤ g → ∃ msg, gdliGo g i (offsAux c L) L = .error msg)) := by
  intro L
  induction L with
  | nil =>
    intro c i g hcg
    constructor
    · intro hlt
      simp only [List.sum_nil] at hlt
      omega
    · intro _
      exact ⟨"Index out of range", rfl⟩
  | cons l L2 ih =>
    intro c i g hcg
    have hstep : gdliGo g i (offsAux c (l :: L2)) (l :: L2)
        = if g < c + l then .ok (i, g - c) else gdliGo g (i + 1) (offsAux (c + l) L2) L2 := by
      rfl
    constructor
    · intro hlt
      by_cases hl : g < c + l
      · refine ⟨0, l, rfl, ?_, ?_, ?_⟩
        · rw [hstep, if_pos hl]
          simp
        · simpa using hcg
        · simpa using hl
      · have hcl : c + l ≤ g := by omega
        have hlt2 : g < (c + l) + L2.sum := by
          simp only [List.sum_cons] at hlt
          omega
        obtain ⟨j2, l2, hget, hrun, hlow, hhigh⟩ := ((ih (c + l) (i + 1) g hcl).1) hlt2
        refine ⟨j2 + 1, l2, by simpa using hget, ?_, ?_, ?_⟩
        · rw [hstep, if_neg hl, hrun]
          have harith : i + 1 + j2 = i + (j2 + 1) := by omega
          have hsum : c + ((l :: L2).take (j2 + 1)).sum = c + l + (L2.take j2).sum := by
            simp [List.sum_cons]
            omega
          rw [harith, hsum]
        · have hsum : c + ((l :: L2).take (j2 + 1)).sum = c + l + (L2.take j2).sum := by
            simp [List.sum_cons]
            omega
          omega
        · have hsum : c + ((l :: L2).take (j2 + 1)).sum = c + l + (L2.take j2).sum := by
            simp [List.sum_cons]
            omega
          omega
    · intro hge
      have hcl : c + l ≤ g := by
        simp only [List.sum_cons] at hge
        omega
      have hge2 : (c + l) + L2.sum ≤ g := by
        simp only [List.sum_cons] at hge
        omega
      obtain ⟨msg, hrun⟩ := ((ih (c + l) (i + 1) g hcl).2) hge2
      refine ⟨msg, ?_⟩
      rw [hstep, if_neg (by omega), hrun]

theorem sum_take_mono (L : List ℕ) (a b : ℕ) (hab : a ≤ b) :
    (L.take a).sum ≤ (L.take b).sum := by
  obtain ⟨m, rfl⟩ : ∃ m, b = a + m := ⟨b - a, by omega⟩
  rw [List.take_add, List.sum_append]
  omega

theorem sum_take_succ_get (L : List ℕ) (j lj : ℕ) (h : L.get? j = some lj) :
    (L.take (j + 1)).sum = (L.take j).sum + lj := by
  induction L generalizing j with
  | nil => cases h
  | cons x xs ih =>
    cases j with
    | zero =>
      simp only [List.get?_cons_zero, Option.some.injEq] at h
      subst h
      simp [List.sum_cons]
    | succ j2 =>
      simp only [List.get?_cons_succ] at h
      have := ih j2 h
      simp [List.sum_cons]
      omega

theorem interval_index_unique (L : List ℕ) (g j k lj lk : ℕ)
    (hj : L.get? j = some lj) (hk : L.get? k = some lk)
    (h1 : (L.take j).sum ≤ g) (h2 : g < (L.take j).sum + lj)
    (h3 : (L.take k).sum ≤ g) (h4 : g < (L.take k).sum + lk) : j = k := by
  rcases Nat.lt_trichotomy j k with hlt | heq | hgt
  · exfalso
    have hs := sum_take_succ_get L j lj hj
    have hm := sum_take_mono L (j + 1) k (by omega)
    omega
  · exact heq
  · exfalso
    have hs := sum_take_succ_get L k lk hk
    have hm := sum_take_mono L (k + 1) j (by omega)
    omega

/-- C9: for a `CombinedDataset` with the given sub-dataset lengths, every
in-range global index is mapped to the unique `(i, g - offset_i)` with
`offset_i ≤ g < offset_i + L_i` (offsets being the cumulative lengths), every
out-of-range global index raises `IndexError`, and `__len__` is the summed
length. -/
theorem combined_dataset_index_correct (lengths : List ℕ) (g : ℕ) :
    (g < lengths.sum →
      ∃ i li, lengths.get? i = some li ∧
        get_dataset_and_local_index lengths g = .ok (i, g - (lengths.take i).sum) ∧
        (lengths.take i).sum ≤ g ∧ g < (lengths.take i).sum + li ∧
        (∀ j lj, lengths.get? j = some lj →
          (lengths.take j).sum ≤ g → g < (lengths.take j).sum + lj → j = i)) ∧
    (lengths.sum ≤ g → ∃ msg, get_dataset_and_local_index lengths g = .error msg) ∧
    CombinedDataset_len lengths = lengths.sum := by
  refine ⟨?_, ?_, rfl⟩
  · intro hlt
    cases lengths with
    | nil => simp at hlt
    | cons l L2 =>
      have hspec := (gdliGo_spec (l :: L2) 0 0 g (Nat.zero_le g)).1 (by simpa using hlt)
      obtain ⟨j, lj, hget, hrun, hlow, hhigh⟩ := hspec
      refine ⟨j, lj, hget, ?_, by simpa using hlow, by simpa using hhigh, ?_⟩
      · unfold get_dataset_and_local_index
        rw [domainOffsets_eq_offsAux, hrun]
        simp
      · intro j2 lj2 hget2 hlow2 hhigh2
        exact interval_index_unique (l :: L2) g j2 j lj2 lj hget2 hget hlow2 hhigh2
          (by simpa using hlow) (by simpa using hhigh)
  · intro hge
    cases lengths with
    | nil => exact ⟨"list index out of range", rfl⟩
    | cons l L2 =>
      obtain ⟨msg, hrun⟩ := (gdliGo_spec (l :: L2) 0 0 g (Nat.zero_le g)).2 (by simpa using hge)
      refine ⟨msg, ?_⟩
      unfold get_dataset_and_local_index
      rw [domainOffsets_eq_offsAux, hrun]

/-- Witness for C9: lengths `[100, 50]`, index 120 falls in sub-dataset 1 at
local index 20, and index 200 raises `IndexError`. -/
theorem combined_dataset_index_correct_witness :
    (∃ i li, [100, 50].get? i = some li ∧
      get_dataset_and_local_index [100, 50] 120 = .ok (i, 120 - ([100, 50].take i).sum) ∧
      ([100, 50].take i).sum ≤ 120 ∧ 120 < ([100, 50].take i).sum + li ∧
      (∀ j lj, [100, 50].get? j = some lj →
        ([100, 50].take j).sum ≤ 120 → 120 < ([100, 50].take j).sum + lj → j = i)) ∧
    (∃ msg, get_dataset_and_local_index [100, 50] 200 = .error msg) :=
  ⟨(combined_dataset_index_correct [100, 50] 120).1 (by decide),
   (combined_dataset_index_correct [100, 50] 200).2.1 (by decide)⟩

/-! ## DistributedSamplerForDoReMi (C7)

`__init__` normalizes `domain_weights / domain_weights.sum()`.  `__iter__`
computes, per sub-dataset `i`:
`dataset_partition_size = len(dataset) // num_replicas`,
`dataset_partition_offsets = rank * dataset_partition_size`,
`num_samples = int(dataset_partition_size * domain_weights[i])`, draws
`num_samples` indices without replacement from `[0, partition_size)`, adds the
partition offset, then the cumulative offset `offsets[i]` of the sub-dataset.
The draw itself (`np.random.choice(n, k, replace=False)`) is abstracted by a
`choice` function assumed to return `k` distinct values below `n`. -/

/-- Model of `self.domain_weights = domain_weights / domain_weights.sum()`. -/
def normalizeWeights (w : List ℚ) : List ℚ :=
  w.map (fun x => x / w.sum)

/-- Python `int(dataset_partition_size * weight)` (truncation; the product is
non-negative in every reachable state). -/
def numSamplesFor (ps : ℕ) (w : ℚ) : ℕ :=
  (⌊(ps : ℚ) * w⌋).toNat

/-- The per-sub-dataset global index pools built by
`DistributedSamplerForDoReMi.__iter__` before shuffling and batching. -/
def doremiDomainDraws (choice : ℕ → ℕ → List ℕ) (lengths : List ℕ) (weights : List ℚ)
    (num_replicas rank : ℕ) : List (List ℕ) :=
  ((lengths.zip (normalizeWeights weights)).zip (domainOffsets lengths)).map
    (fun p =>
      ((choice (p.1.1 / num_replicas)
          (numSamplesFor (p.1.1 / num_replicas) p.1.2)).map
        (fun x => x + rank * (p.1.1 / num_replicas))).map
        (fun x => x + p.2))

theorem offsAux_length : ∀ (L : List ℕ) (c : ℕ), (offsAux c L).length = L.length := by
  intro L
  induction L with
  | nil => intro c; rfl
  | cons l L2 ih =>
    intro c
    show (c :: offsAux (c + l) L2).length = L2.length + 1
    rw [List.length_cons, ih (c + l)]

theorem offsAux_get : ∀ (L : List ℕ) (c i : ℕ), i < L.length →
    (offsAux c L).get? i = some (c + (L.take i).sum) := by
  intro L
  induction L with
  | nil => intro c i h; cases h
  | cons l L2 ih =>
    intro c i h
    cases i with
    | zero => simp [offsAux]
    | succ i2 =>
      have h2 : i2 < L2.length := by
        rw [List.length_cons] at h
        omega
      show (offsAux (c + l) L2).get? i2 = some (c + ((l :: L2).take (i2 + 1)).sum)
      rw [ih (c + l) i2 h2]
      simp [List.sum_cons]
      omega

theorem domainOffsets_get (lengths : List ℕ) (i : ℕ) (h : i < lengths.length) :
    (domainOffsets lengths).get? i = some ((lengths.take i).sum) := by
  cases lengths with
  | nil => cases h
  | cons l L2 =>
    rw [domainOffsets_eq_offsAux]
    have := offsAux_get (l :: L2) 0 i h
    simpa using this

/-- C7: on data-parallel rank `rank` of `num_replicas`, for every sub-dataset
`i` of length `li` with raw weight `wi`, the sampler draws exactly
`int((li / num_replicas) * (wi / sum(weights)))` pairwise-distinct global
indices, all lying in the contiguous window
`[offset_i + rank*partition, offset_i + rank*partition + partition)` where
`partition = li / num_replicas` and `offset_i` is the cumulative length of the
preceding sub-datasets. -/
theorem doremi_domain_draws_spec (choice : ℕ → ℕ → List ℕ)
    (hchoice : ∀ n k, k ≤ n →
      ((choice n k).length = k ∧ (choice n k).Nodup ∧ ∀ x ∈ choice n k, x < n))
    (lengths : List ℕ) (weights : List ℚ)
    (hlen : weights.length = lengths.length)
    (hw : ∀ w ∈ weights, 0 ≤ w) (hsum : 0 < weights.sum)
    (num_replicas rank : ℕ) :
    (doremiDomainDraws choice lengths weights num_replicas rank).length = lengths.length ∧
    (∀ i li wi, lengths.get? i = some li → weights.get? i = some wi →
      ∃ pool,
        (doremiDomainDraws choice lengths weights num_replicas rank).get? i = some pool ∧
        pool.length = numSamplesFor (li / num_replicas) (wi / weights.sum) ∧
        pool.Nodup ∧
        (∀ g ∈ pool,
          (lengths.take i).sum + rank * (li / num_replicas) ≤ g ∧
          g < (lengths.take i).sum + rank * (li / num_replicas) + li / num_replicas)) := by
  have hnormlen : (normalizeWeights weights).length = lengths.length := by
    rw [normalizeWeights, List.length_map, hlen]
  have hofflen : ∀ l L2, lengths = l :: L2 → (domainOffsets lengths).length = lengths.length := by
    intro l L2 hL
    subst hL
    rw [domainOffsets_eq_offsAux, offsAux_length]
  constructor
  · cases hL : lengths with
    | nil => simp [doremiDomainDraws, hL]
    | cons l L2 =>
      rw [doremiDomainDraws, List.length_map, List.length_zip, List.length_zip,
        hnormlen, ← hL, hofflen l L2 hL]
      simp
  · intro i li wi hli hwi
    have hilt : i < lengths.length := by
      obtain ⟨h1, _⟩ := List.get?_eq_some.mp hli
      exact h1
    -- the i-th element of the zipped enumeration
    have hznorm : (normalizeWeights weights).get? i = some (wi / weights.sum) := by
      rw [normalizeWeights, List.get?_map, hwi]
      rfl
    have hoff : (domainOffsets lengths).get? i = some ((lengths.take i).sum) :=
      domainOffsets_get lengths i hilt
    have hzip1 : (lengths.zip (normalizeWeights weights)).get? i
        = some (li, wi / weights.sum) :=
      (List.get?_zip_eq_some lengths (normalizeWeights weights)
        (li, wi / weights.sum) i).mpr ⟨hli, hznorm⟩
    have hzip2 : ((lengths.zip (normalizeWeights weights)).zip (domainOffsets lengths)).get? i
        = some ((li, wi / weights.sum), (lengths.take i).sum) :=
      (List.get?_zip_eq_some _ (domainOffsets lengths)
        ((li, wi / weights.sum), (lengths.take i).sum) i).mpr ⟨hzip1, hoff⟩
    -- the drawn sample count is at most the partition size
    have hwi_mem : wi ∈ weights := by
      obtain ⟨h1, h2⟩ := List.get?_eq_some.mp hwi
      exact h2 ▸ List.get_mem weights i h1
    have hwi_nonneg : (0 : ℚ) ≤ wi := hw wi hwi_mem
    have hwi_le : wi ≤ weights.sum := List.single_le_sum hw wi hwi_mem
    have hfrac_le_one : wi / weights.sum ≤ 1 := by
      rw [div_le_one hsum]
      exact hwi_le
    have hfrac_nonneg : 0 ≤ wi / weights.sum := div_nonneg hwi_nonneg (le_of_lt hsum)
    have hnum_le : numSamplesFor (li / num_replicas) (wi / weights.sum) ≤ li / num_replicas := by
      unfold numSamplesFor
      rw [Int.toNat_le]
      have h1 : ((li / num_replicas : ℕ) : ℚ) * (wi / weights.sum)
          ≤ ((li / num_replicas : ℕ) : ℚ) := by
        calc ((li / num_replicas : ℕ) : ℚ) * (wi / weights.sum)
            ≤ ((li / num_replicas : ℕ) : ℚ) * 1 :=
              mul_le_mul_of_nonneg_left hfrac_le_one (by positivity)
          _ = ((li / num_replicas : ℕ) : ℚ) := mul_one _
      calc ⌊((li / num_replicas : ℕ) : ℚ) * (wi / weights.sum)⌋
          ≤ ⌊((li / num_replicas : ℕ) : ℚ)⌋ := Int.floor_le_floor h1
        _ = ((li / num_replicas : ℕ) : ℤ) := Int.floor_natCast _
    obtain ⟨hclen, hcnodup, hclt⟩ :=
      hchoice (li / num_replicas) (numSamplesFor (li / num_replicas) (wi / weights.sum)) hnum_le
    refine ⟨((choice (li / num_replicas)
          (numSamplesFor (li / num_replicas) (wi / weights.sum))).map
        (fun x => x + rank * (li / num_replicas))).map
        (fun x => x + (lengths.take i).sum), ?_, ?_, ?_, ?_⟩
    · rw [doremiDomainDraws, List.get?_map, hzip2]
      rfl
    · simp [hclen]
    · refine List.Nodup.map ?_ (List.Nodup.map ?_ hcnodup)
      · exact fun a b h => by omega
      · exact fun a b h => by omega
    · intro g hg
      simp only [List.mem_map] at hg
      obtain ⟨y, ⟨x, hx, rfl⟩, rfl⟩ := hg
      have := hclt x hx
      omega

/-- Witness for C7: the concrete scenario of the spec — sub-datasets of
length 100 and 50, weights 0.5/0.5, two data-parallel replicas, rank 0;
25 indices are drawn inside `[0, 50)` and 12 inside `[100, 125)`. -/
theorem doremi_domain_draws_spec_witness :
    ∃ pool0 pool1,
      (doremiDomainDraws (fun _ k => List.range k) [100, 50] [1/2, 1/2] 2 0).get? 0
        = some pool0 ∧
      (doremiDomainDraws (fun _ k => List.range k) [100, 50] [1/2, 1/2] 2 0).get? 1
        = some pool1 ∧
      pool0.length = 25 ∧ pool1.length = 12 ∧
      (∀ g ∈ pool0, 0 ≤ g ∧ g < 50) ∧
      (∀ g ∈ pool1, 100 ≤ g ∧ g < 125) := by
  have hchoice : ∀ n k : ℕ, k ≤ n →
      (((List.range k).length = k) ∧ (List.range k).Nodup ∧ ∀ x ∈ List.range k, x < n) := by
    intro n k hk
    exact ⟨List.length_range k, List.nodup_range k,
      fun x hx => lt_of_lt_of_le (List.mem_range.mp hx) hk⟩
  have h := doremi_domain_draws_spec (fun _ k => List.range k) (fun n k hk => hchoice n k hk)
    [100, 50] [1/2, 1/2] rfl
    (by intro w hw; fin_cases hw <;> norm_num)
    (by norm_num) 2 0
  obtain ⟨p0, hp0get, hp0len, _, hp0mem⟩ := h.2 0 100 (1/2) rfl rfl
  obtain ⟨p1, hp1get, hp1len, _, hp1mem⟩ := h.2 1 50 (1/2) rfl rfl
  refine ⟨p0, p1, hp0get, hp1get, ?_, ?_, ?_, ?_⟩
  · rw [hp0len]
    unfold numSamplesFor
    have : ⌊((100 / 2 : ℕ) : ℚ) * (1 / 2 / ([1/2, 1/2] : List ℚ).sum)⌋ = 25 := by norm_num
    rw [this]
    rfl
  · rw [hp1len]
    unfold numSamplesFor
    have : ⌊((50 / 2 : ℕ) : ℚ) * (1 / 2 / ([1/2, 1/2] : List ℚ).sum)⌋ = 12 := by norm_num
    rw [this]
    rfl
  · intro g hg
    have := hp0mem g hg
    simpa using this
  · intro g hg
    have := hp1mem g hg
    simpa using this

/-! ## get_all_comps (C10)

`helpers.get_all_comps(n)` validates that `n` is a power of two with
`n & (n - 1) == 0 and n != 0`, then repeatedly calls
`op(x, d, r)` for `d = 1, 2, 4, ...` while `d < n` and `r in range(d)`.
`op` reshapes `x` as a `(-1, d)` matrix view, rolls the odd-indexed rows right
by `r` IN PLACE (mutating `x`), and appends the column-major flatten of the
mutated view.  Finally `np.stack(comps)` — which raises `ValueError` on an
empty list — and a reshape to `(rounds, n/2, 2)` produce the pair rounds. -/

/-- Function `np.roll(row, r)`: rotate right by `r`. -/
def rollRight (l : List ℕ) (r : ℕ) : List ℕ :=
  l.rotate (l.length - r % l.length)

/-- Model of `lst[1::2] = np.roll(lst[1::2], r, axis=1)`: roll every odd-indexed row
right by `r`. -/
def rollOddRowsAux (r : ℕ) : List (List ℕ) → List (List ℕ)
  | [] => []
  | [a] => [a]
  | a :: b :: rest => a :: rollRight b r :: rollOddRowsAux r rest

/-- The rows of `x.reshape(-1, d)`. -/
def chunksOf : ℕ → List ℕ → List (List ℕ)
  | _, [] => []
  | 0, x :: xs => [x :: xs]
  | d + 1, x :: xs => (x :: xs).take (d + 1) :: chunksOf (d + 1) ((x :: xs).drop (d + 1))
termination_by d l => l.length
decreasing_by simp [List.length_drop]; omega

/-- The transpose of a rectangular matrix of width `d`, one peeled column at a
time. -/
def transposeRect : ℕ → List (List ℕ) → List (List ℕ)
  | 0, _ => []
  | d + 1, M => M.map List.headI :: transposeRect d (M.map List.tail)

/-- The new flat contents of `x` after `lst[1::2] = np.roll(lst[1::2], r, axis=1)`
on the `(-1, d)` view. -/
def rollOddRows (d r : ℕ) (x : List ℕ) : List ℕ :=
  (rollOddRowsAux r (chunksOf d x)).flatten

/-- One `op(x, d=d, r=r)` call: first component is the appended comparison
round (`lst.T.reshape(-1)` of the mutated view), second is the mutated `x`. -/
def opRound (d r : ℕ) (x : List ℕ) : List ℕ × List ℕ :=
  ((transposeRect d (chunksOf d (rollOddRows d r x))).flatten, rollOddRows d r x)

/-- Loop `for r in rs: comps.append(op(x, d=d, r=r).copy())`, threading the mutated
`x`. -/
def innerComps (d : ℕ) : List ℕ → List ℕ → List (List ℕ) × List ℕ
  | [], x => ([], x)
  | r :: rs, x =>
    ((opRound d r x).1 :: (innerComps d rs (opRound d r x).2).1,
     (innerComps d rs (opRound d r x).2).2)

/-- Loop `while d < n: (inner loop); d *= 2`, with fuel; `fuel = n` suffices for
every `n` that reaches the loop. -/
def compsLoop : ℕ → ℕ → ℕ → List ℕ → List (List ℕ)
  | 0, _, _, _ => []
  | fuel + 1, n, d, x =>
    if d < n then
      (innerComps d (List.range d) x).1
        ++ compsLoop fuel n (2 * d) (innerComps d (List.range d) x).2
    else []

/-- Function `helpers.get_all_comps`. -/
def get_all_comps (n : ℕ) : Except String (List (List (List ℕ))) :=
  if ¬(n &&& (n - 1) = 0 ∧ n ≠ 0) then .error "n must be a power of two"
  else
    let comps := compsLoop n n 1 (List.range n)
    if comps = [] then .error "need at least one array to stack"
    else .ok (comps.map (chunksOf 2))

open List

theorem flatten_chunksOf (d : ℕ) : ∀ l : List ℕ, (chunksOf (d + 1) l).flatten = l := by
  have key : ∀ (N : ℕ) (l : List ℕ), l.length ≤ N → (chunksOf (d + 1) l).flatten = l := by
    intro N
    induction N with
    | zero =>
      intro l hl
      have : l = [] := by
        cases l with
        | nil => rfl
        | cons x xs => simp at hl
      subst this
      simp [chunksOf]
    | succ N ih =>
      intro l hl
      cases l with
      | nil => simp [chunksOf]
      | cons x xs =>
        show (chunksOf (d + 1) (x :: xs)).flatten = x :: xs
        rw [chunksOf]
        rw [List.flatten_cons, ih ((x :: xs).drop (d + 1))
          (by simp only [List.length_drop, List.length_cons] at hl ⊢; omega)]
        exact List.take_append_drop (d + 1) (x :: xs)
  exact fun l => key l.length l le_rfl

theorem chunksOf_mem_length (d : ℕ) : ∀ l : List ℕ, (d + 1) ∣ l.length →
    ∀ c ∈ chunksOf (d + 1) l, c.length = d + 1 := by
  have key : ∀ (N : ℕ) (l : List ℕ), l.length ≤ N → (d + 1) ∣ l.length →
      ∀ c ∈ chunksOf (d + 1) l, c.length = d + 1 := by
    intro N
    induction N with
    | zero =>
      intro l hl hdvd c hc
      have : l = [] := by
        cases l with
        | nil => rfl
        | cons x xs => simp at hl
      subst this
      simp [chunksOf] at hc
    | succ N ih =>
      intro l hl hdvd c hc
      cases l with
      | nil => simp [chunksOf] at hc
      | cons x xs =>
        have hge : d + 1 ≤ (x :: xs).length := by
          rcases hdvd with ⟨m, hm⟩
          cases m with
          | zero => simp at hm
          | succ m2 =>
            rw [hm]
            calc d + 1 ≤ (d + 1) * (m2 + 1) := Nat.le_mul_of_pos_right _ (by omega)
              _ = (d + 1) * Nat.succ m2 := rfl
        rw [chunksOf] at hc
        rcases List.mem_cons.mp hc with hc1 | hc2
        · rw [hc1, List.length_take]
          omega
        · have hdvd2 : (d + 1) ∣ ((x :: xs).drop (d + 1)).length := by
            rw [List.length_drop]
            exact Nat.dvd_sub' hdvd dvd_rfl
          exact ih ((x :: xs).drop (d + 1))
            (by simp only [List.length_drop, List.length_cons] at hl ⊢; omega) hdvd2 c hc2
  exact fun l => key l.length l le_rfl

theorem chunksOf_count (d : ℕ) : ∀ l : List ℕ, (d + 1) ∣ l.length →
    (chunksOf (d + 1) l).length = l.length / (d + 1) := by
  have key : ∀ (N : ℕ) (l : List ℕ), l.length ≤ N → (d + 1) ∣ l.length →
      (chunksOf (d + 1) l).length = l.length / (d + 1) := by
    intro N
    induction N with
    | zero =>
      intro l hl hdvd
      have : l = [] := by
        cases l with
        | nil => rfl
        | cons x xs => simp at hl
      subst this
      simp [chunksOf]
    | succ N ih =>
      intro l hl hdvd
      cases l with
      | nil => simp [chunksOf]
      | cons x xs =>
        have hge : d + 1 ≤ (x :: xs).length := by
          rcases hdvd with ⟨m, hm⟩
          cases m with
          | zero => simp at hm
          | succ m2 =>
            rw [hm]
            calc d + 1 ≤ (d + 1) * (m2 + 1) := Nat.le_mul_of_pos_right _ (by omega)
              _ = (d + 1) * Nat.succ m2 := rfl
        have hdvd2 : (d + 1) ∣ ((x :: xs).drop (d + 1)).length := by
          rw [List.length_drop]
          exact Nat.dvd_sub' hdvd dvd_rfl
        rw [chunksOf, List.length_cons,
          ih ((x :: xs).drop (d + 1))
            (by simp only [List.length_drop, List.length_cons] at hl ⊢; omega) hdvd2,
          List.length_drop]
        rw [Nat.div_eq_sub_div (by omega) hge]
  exact fun l => key l.length l le_rfl

theorem rollRight_perm (l : List ℕ) (r : ℕ) : (rollRight l r).Perm l :=
  List.rotate_perm l _

theorem rollOddRowsAux_flatten_perm (r : ℕ) : ∀ M : List (List ℕ),
    (rollOddRowsAux r M).flatten.Perm M.flatten := by
  have key : ∀ (N : ℕ) (M : List (List ℕ)), M.length ≤ N →
      (rollOddRowsAux r M).flatten.Perm M.flatten := by
    intro N
    induction N with
    | zero =>
      intro M hM
      have : M = [] := by
        cases M with
        | nil => rfl
        | cons a M2 => simp at hM
      subst this
      exact List.Perm.refl _
    | succ N ih =>
      intro M hM
      match M with
      | [] => exact List.Perm.refl _
      | [a] => exact List.Perm.refl _
      | a :: b :: rest =>
        show (a :: rollRight b r :: rollOddRowsAux r rest).flatten.Perm
          ((a :: b :: rest).flatten)
        rw [List.flatten_cons, List.flatten_cons, List.flatten_cons, List.flatten_cons]
        exact List.Perm.append_left a
          (List.Perm.append (rollRight_perm b r)
            (ih rest (by simp at hM; omega)))
  exact fun M => key M.length M le_rfl

theorem perm_pull_append (t A B : List ℕ) : (t ++ (A ++ B)).Perm (A ++ (t ++ B)) := by
  calc t ++ (A ++ B) = (t ++ A) ++ B := (List.append_assoc t A B).symm
    _ ~ (A ++ t) ++ B := List.Perm.append_right B List.perm_append_comm
    _ = A ++ (t ++ B) := List.append_assoc A t B

theorem flatten_map_headI_tail (d : ℕ) : ∀ M : List (List ℕ),
    (∀ row ∈ M, row.length = d + 1) →
    M.flatten.Perm ((M.map List.headI) ++ (M.map List.tail).flatten) := by
  intro M
  induction M with
  | nil => intro _; exact List.Perm.refl _
  | cons row M2 ih =>
    intro hrows
    have hrow : row.length = d + 1 := hrows row (by simp)
    cases row with
    | nil => simp at hrow
    | cons h t =>
      have ih2 := ih (fun row2 hrow2 => hrows row2 (by simp [hrow2]))
      show ((h :: t) ++ M2.flatten).Perm
        ((h :: M2.map List.headI) ++ (t :: M2.map List.tail).flatten)
      rw [List.flatten_cons, List.cons_append, List.cons_append]
      refine List.Perm.cons h ?_
      calc t ++ M2.flatten
          ~ t ++ (M2.map List.headI ++ (M2.map List.tail).flatten) :=
            List.Perm.append_left t ih2
        _ ~ M2.map List.headI ++ (t ++ (M2.map List.tail).flatten) :=
            perm_pull_append t _ _

theorem transposeRect_flatten_perm : ∀ (d : ℕ) (M : List (List ℕ)),
    (∀ row ∈ M, row.length = d) → (transposeRect d M).flatten.Perm M.flatten := by
  intro d
  induction d with
  | zero =>
    intro M hrows
    have : M.flatten = [] := by
      rw [List.flatten_eq_nil_iff]
      intro l hl
      exact List.length_eq_zero.mp (hrows l hl)
    rw [this]
    exact List.Perm.refl _
  | succ d2 ih =>
    intro M hrows
    show ((M.map List.headI) :: transposeRect d2 (M.map List.tail)).flatten.Perm M.flatten
    rw [List.flatten_cons]
    have htails : ∀ row ∈ M.map List.tail, row.length = d2 := by
      intro row hrow
      rcases List.mem_map.mp hrow with ⟨row0, hrow0, rfl⟩
      have := hrows row0 hrow0
      simp [List.length_tail, this]
    calc M.map List.headI ++ (transposeRect d2 (M.map List.tail)).flatten
        ~ M.map List.headI ++ (M.map List.tail).flatten :=
          List.Perm.append_left _ (ih (M.map List.tail) htails)
      _ ~ M.flatten := (flatten_map_headI_tail d2 M hrows).symm

theorem rollOddRows_perm (d r : ℕ) (x : List ℕ) :
    (rollOddRows (d + 1) r x).Perm x := by
  unfold rollOddRows
  calc (rollOddRowsAux r (chunksOf (d + 1) x)).flatten
      ~ (chunksOf (d + 1) x).flatten := rollOddRowsAux_flatten_perm r _
    _ = x := flatten_chunksOf d x

theorem opRound_perm (d r : ℕ) (x : List ℕ) (hdvd : (d + 1) ∣ x.length) :
    (opRound (d + 1) r x).1.Perm x ∧ (opRound (d + 1) r x).2.Perm x := by
  have h2 := rollOddRows_perm d r x
  have hdvd2 : (d + 1) ∣ (rollOddRows (d + 1) r x).length := by
    rw [h2.length_eq]
    exact hdvd
  refine ⟨?_, h2⟩
  show (transposeRect (d + 1) (chunksOf (d + 1) (rollOddRows (d + 1) r x))).flatten.Perm x
  calc (transposeRect (d + 1) (chunksOf (d + 1) (rollOddRows (d + 1) r x))).flatten
      ~ (chunksOf (d + 1) (rollOddRows (d + 1) r x)).flatten :=
        transposeRect_flatten_perm (d + 1) _ (chunksOf_mem_length d _ hdvd2)
    _ = rollOddRows (d + 1) r x := flatten_chunksOf d _
    _ ~ x := h2

theorem innerComps_spec (d : ℕ) : ∀ (rs : List ℕ) (x : List ℕ), (d + 1) ∣ x.length →
    ((innerComps (d + 1) rs x).2.Perm x ∧
     (innerComps (d + 1) rs x).1.length = rs.length ∧
     ∀ c ∈ (innerComps (d + 1) rs x).1, c.Perm x) := by
  intro rs
  induction rs with
  | nil =>
    intro x _
    exact ⟨List.Perm.refl x, rfl, by intro c hc; simp [innerComps] at hc⟩
  | cons r rs2 ih =>
    intro x hdvd
    obtain ⟨hop1, hop2⟩ := opRound_perm d r x hdvd
    have hdvd2 : (d + 1) ∣ (opRound (d + 1) r x).2.length := by
      rw [hop2.length_eq]
      exact hdvd
    obtain ⟨hsnd, hlen, hmem⟩ := ih (opRound (d + 1) r x).2 hdvd2
    refine ⟨hsnd.trans hop2, ?_, ?_⟩
    · show ((opRound (d + 1) r x).1 :: (innerComps (d + 1) rs2 (opRound (d + 1) r x).2).1).length
        = rs2.length + 1
      rw [List.length_cons, hlen]
    · intro c hc
      rcases List.mem_cons.mp hc with hc1 | hc2
      · exact hc1 ▸ hop1
      · exact (hmem c hc2).trans hop2

theorem compsLoop_spec (k : ℕ) : ∀ (fuel j : ℕ) (x : List ℕ), j ≤ k →
    k + 1 - j ≤ fuel → x.length = 2 ^ k →
    ((compsLoop fuel (2 ^ k) (2 ^ j) x).length = 2 ^ k - 2 ^ j ∧
     ∀ c ∈ compsLoop fuel (2 ^ k) (2 ^ j) x, c.Perm x) := by
  intro fuel
  induction fuel with
  | zero =>
    intro j x hj hfuel _
    omega
  | succ fuel ih =>
    intro j x hj hfuel hx
    by_cases hjk : j < k
    · have hdlt : 2 ^ j < 2 ^ k := Nat.pow_lt_pow_right (by omega) hjk
      have hdpos : 0 < 2 ^ j := Nat.pos_pow_of_pos j (by omega)
      obtain ⟨d2, hd2⟩ : ∃ m, 2 ^ j = m + 1 := ⟨2 ^ j - 1, by omega⟩
      have hdvd : 2 ^ j ∣ x.length := by
        rw [hx]
        exact Nat.pow_dvd_pow 2 (by omega)
      have hinner := innerComps_spec d2 (List.range (2 ^ j)) x (hd2 ▸ hdvd)
      rw [← hd2] at hinner
      obtain ⟨hsnd, hlen, hmem⟩ := hinner
      have hx2 : (innerComps (2 ^ j) (List.range (2 ^ j)) x).2.length = 2 ^ k := by
        rw [hsnd.length_eq, hx]
      have hpow : 2 * 2 ^ j = 2 ^ (j + 1) := by
        rw [pow_succ]
        ring
      have hrec := ih (j + 1) (innerComps (2 ^ j) (List.range (2 ^ j)) x).2
        (by omega) (by omega) hx2
      simp only [compsLoop]
      rw [if_pos hdlt, hpow]
      have hple : 2 ^ (j + 1) ≤ 2 ^ k := Nat.pow_le_pow_right (by omega) (by omega)
      constructor
      · rw [List.length_append, hlen, List.length_range, hrec.1]
        omega
      · intro c hc
        rcases List.mem_append.mp hc with hc1 | hc2
        · exact hmem c hc1
        · exact (hrec.2 c hc2).trans hsnd
    · have hj2 : j = k := by omega
      subst hj2
      simp only [compsLoop]
      rw [if_neg (lt_irrefl _)]
      exact ⟨by simp, by intro c hc; simp at hc⟩

theorem two_pow_land_pred (k : ℕ) : 2 ^ k &&& (2 ^ k - 1) = 0 := by
  apply Nat.eq_of_testBit_eq
  intro i
  rw [Nat.testBit_land, Nat.testBit_two_pow, Nat.testBit_two_pow_sub_one, Nat.zero_testBit]
  by_cases h : k = i
  · subst h
    simp
  · simp [h]

theorem land_pred_zero_pow (n : ℕ) (hn : n ≠ 0) (h : n &&& (n - 1) = 0) :
    ∃ k, n = 2 ^ k := by
  induction n using Nat.strong_induction_on with
  | _ n ih =>
    rcases Nat.lt_or_ge n 2 with hsmall | hbig
    · interval_cases n
      · exact absurd rfl hn
      · exact ⟨0, rfl⟩
    · rcases Nat.even_or_odd n with heven | hodd
      · obtain ⟨m, hm⟩ := heven
        have hm2 : n = 2 * m := by omega
        have hmne : m ≠ 0 := by omega
        have hland : m &&& (m - 1) = 0 := by
          apply Nat.eq_of_testBit_eq
          intro i
          have h1 : m.testBit i = n.testBit (i + 1) := by
            rw [Nat.testBit_succ]
            congr 1
            omega
          have h2 : (m - 1).testBit i = (n - 1).testBit (i + 1) := by
            rw [Nat.testBit_succ]
            congr 1
            omega
          rw [Nat.zero_testBit, ← Nat.zero_testBit (i + 1), ← h]
          rw [Nat.testBit_land, Nat.testBit_land, h1, h2]
        obtain ⟨k, hk⟩ := ih m (by omega) hmne hland
        exact ⟨k + 1, by rw [hm2, hk, pow_succ]; ring⟩
      · exfalso
        obtain ⟨m, hm⟩ := hodd
        have hmne : m ≠ 0 := by omega
        obtain ⟨i, hbit, _⟩ := Nat.exists_most_significant_bit hmne
        have h1 : n.testBit (i + 1) = true := by
          rw [Nat.testBit_succ]
          have : n / 2 = m := by omega
          rw [this, hbit]
        have h2 : (n - 1).testBit (i + 1) = true := by
          rw [Nat.testBit_succ]
          have : (n - 1) / 2 = m := by omega
          rw [this, hbit]
        have := congrArg (fun z => z.testBit (i + 1)) h
        simp only [Nat.testBit_land, h1, h2, Nat.zero_testBit, Bool.and_self] at this
        exact Bool.noConfusion this

theorem get_all_comps_one_eval :
    get_all_comps 1 = .error "need at least one array to stack" := by
  unfold get_all_comps
  rw [if_neg (not_not_intro ⟨by rw [Nat.sub_self]; exact Nat.and_zero 1, one_ne_zero⟩)]
  rfl

/-- C10 counterexample: `n = 1` is a power of two (it passes the
`n & (n - 1) == 0 and n != 0` guard), yet `get_all_comps 1` does not return
the `n - 1 = 0` rounds the claim promises — `np.stack` on the empty round
list raises `ValueError`. -/
theorem get_all_comps_one_counterexample :
    ((1 : ℕ) &&& (1 - 1) = 0 ∧ (1 : ℕ) ≠ 0) ∧
    get_all_comps 1 = .error "need at least one array to stack" :=
  ⟨⟨by rw [Nat.sub_self]; exact Nat.and_zero 1, one_ne_zero⟩, get_all_comps_one_eval⟩

/-- C10 as amended: `get_all_comps n` raises `ValueError` whenever `n` is
zero or not a power of two (the guard `n & (n-1) == 0 and n != 0` holds
exactly for the powers of two), and additionally at `n = 1`, where the guard
passes but the round list is empty and `np.stack` raises `ValueError`; for
every power of two `n = 2^k` with `k ≥ 1` it returns exactly `n - 1` rounds,
each consisting of `n / 2` pairs whose concatenation is a permutation of the
ranks `0..n-1`, so every rank appears exactly once per round. -/
theorem get_all_comps_amended :
    (∀ n : ℕ, ¬(n &&& (n - 1) = 0 ∧ n ≠ 0) →
        get_all_comps n = .error "n must be a power of two") ∧
    (∀ n : ℕ, n ≠ 0 → ((n &&& (n - 1) = 0) ↔ ∃ k, n = 2 ^ k)) ∧
    get_all_comps 1 = .error "need at least one array to stack" ∧
    (∀ k n : ℕ, 1 ≤ k → n = 2 ^ k →
      ∃ rounds, get_all_comps n = .ok rounds ∧
        rounds.length = n - 1 ∧
        ∀ round ∈ rounds, round.length = n / 2 ∧
          (∀ pair ∈ round, pair.length = 2) ∧
          round.flatten.Perm (List.range n)) := by
  refine ⟨?_, ?_, get_all_comps_one_eval, ?_⟩
  · intro n hguard
    unfold get_all_comps
    rw [if_pos hguard]
  · intro n hn
    exact ⟨land_pred_zero_pow n hn, fun ⟨k, hk⟩ => hk ▸ two_pow_land_pred k⟩
  · intro k n hk hn
    subst hn
    have hspec := compsLoop_spec k (2 ^ k) 0 (List.range (2 ^ k)) (by omega)
      (by have := Nat.lt_two_pow k; omega) (List.length_range _)
    simp only [pow_zero] at hspec
    obtain ⟨hlen, hmem⟩ := hspec
    have hn2 : 2 ≤ 2 ^ k := by
      calc 2 = 2 ^ 1 := rfl
        _ ≤ 2 ^ k := Nat.pow_le_pow_right (by omega) hk
    have hne : compsLoop (2 ^ k) (2 ^ k) 1 (List.range (2 ^ k)) ≠ [] := by
      intro hcontra
      rw [hcontra] at hlen
      simp at hlen
      omega
    refine ⟨(compsLoop (2 ^ k) (2 ^ k) 1 (List.range (2 ^ k))).map (chunksOf 2), ?_, ?_, ?_⟩
    · unfold get_all_comps
      rw [if_neg (not_not_intro ⟨two_pow_land_pred k, by positivity⟩)]
      simp only
      rw [if_neg hne]
    · rw [List.length_map, hlen]
    · intro round hround
      rcases List.mem_map.mp hround with ⟨c, hc, rfl⟩
      have hcperm := hmem c hc
      have hclen : c.length = 2 ^ k := by
        rw [hcperm.length_eq, List.length_range]
      have hdvd : 2 ∣ c.length := by
        rw [hclen]
        calc (2 : ℕ) = 2 ^ 1 := rfl
          _ ∣ 2 ^ k := Nat.pow_dvd_pow 2 hk
      refine ⟨?_, ?_, ?_⟩
      · have := chunksOf_count 1 c hdvd
        rw [this, hclen]
      · exact chunksOf_mem_length 1 c hdvd
      · rw [flatten_chunksOf 1 c]
        exact hcperm

/-- Witness for C10 (amended): the error clauses at `n = 0` and `n = 3`, the
guard equivalence at `n = 4`, and the round structure for `n = 2`. -/
theorem get_all_comps_amended_witness :
    get_all_comps 0 = .error "n must be a power of two" ∧
    (((4 : ℕ) &&& (4 - 1) = 0) ↔ ∃ k, (4 : ℕ) = 2 ^ k) ∧
    (∃ rounds, get_all_comps 2 = .ok rounds ∧
      rounds.length = 2 - 1 ∧
      ∀ round ∈ rounds, round.length = 2 / 2 ∧
        (∀ pair ∈ round, pair.length = 2) ∧
        round.flatten.Perm (List.range 2)) :=
  ⟨get_all_comps_amended.1 0 (by simp),
   get_all_comps_amended.2.1 4 (by omega),
   get_all_comps_amended.2.2.2 1 2 le_rfl rfl⟩

end Nanotron
